import Mathlib

/- A shallow embedding of the `serial` schedule-classification engine
(action.py and serial.py): schedules are lists of actions; the five boolean
classifiers, the view-equivalence checker and the conflict-graph builder are
translated function by function.  Python dicts keyed by object / transaction
id become total functions with the defaultdict default; Python sets become
lists used up to membership. -/

namespace Serial

/-- Enumeration of action types (action.py: READ, WRITE, COMMIT, ABORT). -/
inductive Op where
  | READ
  | WRITE
  | COMMIT
  | ABORT
deriving DecidableEq, Repr

/-- An action of a schedule (action.py): the four constructors mirror the
four smart constructors r, w, commit, abort. -/
inductive Action where
  | read (i : Nat) (obj : String)
  | write (i : Nat) (obj : String)
  | commit (i : Nat)
  | abort (i : Nat)
deriving DecidableEq, Repr

/-- The operation tag of an action (field `op` of action.py's Action). -/
def Action.op : Action → Op
  | .read _ _ => .READ
  | .write _ _ => .WRITE
  | .commit _ => .COMMIT
  | .abort _ => .ABORT

/-- The transaction id of an action (field `i` of action.py's Action). -/
def Action.i : Action → Nat
  | .read i _ => i
  | .write i _ => i
  | .commit i => i
  | .abort i => i

/-- The object of an action (field `obj`; None for Commit and Abort). -/
def Action.obj : Action → Option String
  | .read _ o => some o
  | .write _ o => some o
  | .commit _ => none
  | .abort _ => none

/-- Pointwise update of a dictionary modelled as a total function. -/
def upd {α β : Type} [DecidableEq α] (f : α → β) (k : α) (v : β) : α → β :=
  fun x => if x = k then v else f x

/-- Append an id to a list if it is not already there (the `if a.i not in js`
append of transaction_ids, and Python set.add up to membership). -/
def insertId (js : List Nat) (x : Nat) : List Nat :=
  if x ∈ js then js else js ++ [x]

/-- serial.flatten: concatenate a list of lists. -/
def flatten {α : Type} (ls : List (List α)) : List α := ls.flatten

/-- serial.transaction_ids: unique transaction ids in first-appearance order. -/
def transaction_ids (s : List Action) : List Nat :=
  s.foldl (fun js a => insertId js a.i) []

/-- serial.transactions: partition a schedule into its transactions, in
first-appearance order of their ids, each keeping schedule order. -/
def transactions (s : List Action) : List (List Action) :=
  (transaction_ids s).map (fun j => s.filter (fun a => decide (a.i = j)))

/-- The ids of transactions having an Abort action (set `aborteds`). -/
def aborted_ids (s : List Action) : List Nat :=
  (s.filter (fun a => decide (a.op = Op.ABORT))).map Action.i

/-- serial.drop_aborts: remove all transactions that abort. -/
def drop_aborts (s : List Action) : List Action :=
  s.filter (fun a => decide (a.i ∉ aborted_ids s))

/-- The ids of transactions having a Commit or Abort action (set `ends`). -/
def ended_ids (s : List Action) : List Nat :=
  (s.filter (fun a => decide (a.op = Op.COMMIT ∨ a.op = Op.ABORT))).map Action.i

/-- serial.add_commits: append a Commit for every transaction that has no
Commit or Abort, in first-appearance order of transaction id. -/
def add_commits (s : List Action) : List Action :=
  s ++ ((transaction_ids s).filter (fun i => decide (i ∉ ended_ids s))).map Action.commit

/-- The loop of serial.first_read: `fr` maps each object to the ids that read
it before any write to it, `written` is the set of written objects. -/
def frAux : List Action → (String → List Nat) → List String → (String → List Nat)
  | [], fr, _ => fr
  | a :: rest, fr, written =>
    match a with
    | .read i o =>
      if o ∈ written then frAux rest fr written
      else frAux rest (upd fr o (fr o ++ [i])) written
    | .write _ o => frAux rest fr (o :: written)
    | _ => frAux rest fr written

/-- serial.first_read as a total function; an object never initially read is
sent to [] (it is absent from the Python dict). -/
def first_read (s : List Action) : String → List Nat :=
  frAux s (fun _ => []) []

/-- The loop of serial.number: pair each action with its zero-based index
among its own transaction's actions. -/
def numAux : List Action → (Nat → Nat) → List (Nat × Action)
  | [], _ => []
  | a :: rest, ns => (ns a.i, a) :: numAux rest (upd ns a.i (ns a.i + 1))

/-- serial.number. -/
def number (s : List Action) : List (Nat × Action) :=
  numAux s (fun _ => 0)

/-- The loop of serial.view_graph: an edge from each numbered read to the
most recent numbered write of the same object; `lastw` is `last_written`. -/
def vgAux : List (Nat × Action) → (String → Option (Nat × Action)) →
    List ((Nat × Action) × (Nat × Action))
  | [], _ => []
  | (n, a) :: rest, lastw =>
    match a with
    | .write _ o => vgAux rest (upd lastw o (some (n, a)))
    | .read _ o =>
      match lastw o with
      | some wr => ((n, a), wr) :: vgAux rest lastw
      | none => vgAux rest lastw
    | _ => vgAux rest lastw

/-- serial.view_graph, as its edge list (a networkx DiGraph built solely by
add_edge is its edge set together with the endpoint nodes). -/
def view_graph (s : List Action) : List ((Nat × Action) × (Nat × Action)) :=
  vgAux (number s) (fun _ => none)

/-- The nodes of a graph built solely by add_edge: the edge endpoints. -/
def vgNodes (es : List ((Nat × Action) × (Nat × Action))) : List (Nat × Action) :=
  es.flatMap (fun e => [e.1, e.2])

/-- One action of serial.last_written's loop: a write records its writer. -/
def lwStep (lw : String → Option Nat) (a : Action) : String → Option Nat :=
  match a with
  | .write i o => upd lw o (some i)
  | _ => lw

/-- serial.last_written as a total function; an object never written is sent
to none (it is absent from the Python dict). -/
def last_written (s : List Action) : String → Option Nat :=
  s.foldl lwStep (fun _ => none)

/-- Bool test that every member of l1 is a member of l2. -/
def listSubset {α : Type} [DecidableEq α] (l1 l2 : List α) : Bool :=
  l1.all (fun x => decide (x ∈ l2))

/-- Bool test that two lists have the same members (Python set equality). -/
def listSetEq {α : Type} [DecidableEq α] (l1 l2 : List α) : Bool :=
  listSubset l1 l2 && listSubset l2 l1

/-- serial.graphs_eq on view graphs: same node set and same edge set. -/
def graphs_eq (g1 g2 : List ((Nat × Action) × (Nat × Action))) : Bool :=
  listSetEq (vgNodes g1) (vgNodes g2) && listSetEq g1 g2

/-- The objects mentioned by the read and write actions of a schedule. -/
def objectsOf (s : List Action) : List String :=
  s.filterMap Action.obj

/-- Python `first_read(s1) == first_read(s2)`: dict equality, checked on the
objects of either schedule (on every other object both maps are empty). -/
def frEqB (s1 s2 : List Action) : Bool :=
  (objectsOf s1 ++ objectsOf s2).all (fun o => decide (first_read s1 o = first_read s2 o))

/-- Python `last_written(s1) == last_written(s2)` as a bounded check. -/
def lwEqB (s1 s2 : List Action) : Bool :=
  (objectsOf s1 ++ objectsOf s2).all (fun o => decide (last_written s1 o = last_written s2 o))

/-- Python `set(transaction_ids(s1)) == set(transaction_ids(s2))`. -/
def idSetEq (s1 s2 : List Action) : Bool :=
  listSetEq (transaction_ids s1) (transaction_ids s2)

/-- serial.view_equivalent.  The Python function asserts that both schedules
range over one set of transaction ids; a violated assert raises, which the
embedding returns as none.  Otherwise some of the three-condition check. -/
def view_equivalent (s1 s2 : List Action) : Option Bool :=
  if idSetEq s1 s2 then
    some (frEqB s1 s2 && graphs_eq (view_graph s1) (view_graph s2) && lwEqB s1 s2)
  else none

/-- A conflict graph (networkx DiGraph with explicit nodes and edges). -/
structure DiGraph where
  nodes : List Nat
  edges : List (Nat × Nat)
deriving DecidableEq, Repr

/-- The double loop of serial.conflict_graph: a pair for each (a, b) with a
before b, on the same object, from different transactions, one a write. -/
def conflictPairs : List Action → List (Nat × Nat)
  | [] => []
  | a :: rest =>
    (rest.filter (fun b =>
        decide (a.obj = b.obj ∧ a.i ≠ b.i ∧ (a.op = Op.WRITE ∨ b.op = Op.WRITE)))).map
      (fun b => (a.i, b.i)) ++ conflictPairs rest

/-- serial.conflict_graph: drop aborted transactions, nodes are the surviving
transaction ids, edges the conflicting ordered pairs. -/
def conflict_graph (s : List Action) : DiGraph :=
  { nodes := transaction_ids (drop_aborts s)
    edges := conflictPairs (drop_aborts s) }

/-- The successors of x along an edge list. -/
def succsF (E : List (Nat × Nat)) (x : Nat) : Finset Nat :=
  ((E.filter (fun e => decide (e.1 = x))).map Prod.snd).toFinset

/-- One expansion step of a reachable set. -/
def grow (E : List (Nat × Nat)) (S : Finset Nat) : Finset Nat :=
  S ∪ S.biUnion (succsF E)

/-- n expansion steps. -/
def growN (E : List (Nat × Nat)) : Nat → Finset Nat → Finset Nat
  | 0, S => S
  | n + 1, S => growN E n (grow E S)

/-- All nodes reachable from x (enough steps to reach the fixed point). -/
def reachSet (E : List (Nat × Nat)) (x : Nat) : Finset Nat :=
  growN E (E.length + 1) {x}

/-- Whether an edge list has a directed cycle: some edge closes back on its
own source.  This decides `len(list(nx.simple_cycles(G))) == 0`. -/
def hasCycleB (E : List (Nat × Nat)) : Bool :=
  E.any (fun e => decide (e.1 ∈ reachSet E e.2))

/-- serial.conflict_serializable: the conflict graph has no cycle. -/
def conflict_serializable (s : List Action) : Bool :=
  ! hasCycleB (conflict_graph s).edges

/-- The blind-write scan of serial.view_serializable over one transaction:
a write to an object the transaction has not itself read before. -/
def bwAux : List Action → List String → Bool
  | [], _ => false
  | a :: rest, objects_read =>
    match a with
    | .write _ o => if o ∈ objects_read then bwAux rest objects_read else true
    | .read _ o => bwAux rest (o :: objects_read)
    | _ => bwAux rest objects_read

/-- Whether any transaction of the schedule has a blind write. -/
def has_blind_write (s : List Action) : Bool :=
  (transactions s).any (fun t => bwAux t [])

/-- All insertions of x into a list, one per position. -/
def inserts {α : Type} (x : α) : List α → List (List α)
  | [] => [[x]]
  | y :: l => (x :: y :: l) :: (inserts x l).map (fun t => y :: t)

/-- All permutations of a list (itertools.permutations up to order of
enumeration, which the existential search does not see). -/
def perms {α : Type} : List α → List (List α)
  | [] => [[]]
  | x :: l => (perms l).flatMap (inserts x)

/-- serial.view_serializable: drop aborts; true when conflict-serializable;
false when there is no blind write; otherwise brute force over every
permutation of the per-transaction partitions. -/
def view_serializable (s : List Action) : Bool :=
  let s2 := drop_aborts s
  if conflict_serializable s2 then true
  else if ! has_blind_write s2 then false
  else (perms (transactions s2)).any
    (fun p => decide (view_equivalent (flatten p) s2 = some true))

/-- The per-call state of serial.recoverable. -/
structure RecState where
  written_by : String → List Nat
  read_from : Nat → List Nat
  committed : List Nat

/-- One action of serial.recoverable's loop; none is `return False`. -/
def recStep (st : RecState) : Action → Option RecState
  | .write i o =>
    some { st with written_by := upd st.written_by o (st.written_by o ++ [i]) }
  | .read i o =>
    match (st.written_by o).getLast? with
    | some w =>
      if w ≠ i then
        some { st with read_from := upd st.read_from i (insertId (st.read_from i) w) }
      else some st
    | none => some st
  | .commit i =>
    if (st.read_from i).all (fun j => decide (j ∈ st.committed)) then
      some { st with committed := st.committed ++ [i] }
    else none
  | .abort i =>
    some { st with written_by := fun o => (st.written_by o).filter (fun j => decide (j ≠ i)) }

/-- Run a step function over a schedule: false as soon as a step fails,
true when every action is consumed. -/
def runB {σ : Type} (step : σ → Action → Option σ) : σ → List Action → Bool
  | _, [] => true
  | st, a :: rest =>
    match step st a with
    | some st2 => runB step st2 rest
    | none => false

/-- The initial state of serial.recoverable (empty defaultdicts and set). -/
def recInit : RecState :=
  ⟨fun _ => [], fun _ => [], []⟩

/-- serial.recoverable. -/
def recoverable (s : List Action) : Bool :=
  runB recStep recInit (add_commits s)

/-- The per-call state of serial.aca and serial.strict. -/
structure LwState where
  last_write : String → List Nat
  committed : List Nat

/-- One action of serial.aca's loop; none is `return False`. -/
def acaStep (st : LwState) : Action → Option LwState
  | .write i o =>
    some { st with last_write := upd st.last_write o (st.last_write o ++ [i]) }
  | .read i o =>
    match (st.last_write o).getLast? with
    | some w => if w ∉ st.committed ∧ w ≠ i then none else some st
    | none => some st
  | .commit i => some { st with committed := st.committed ++ [i] }
  | .abort i =>
    some { st with last_write := fun o => (st.last_write o).filter (fun j => decide (j ≠ i)) }

/-- The initial state of serial.aca and serial.strict. -/
def lwInit : LwState :=
  ⟨fun _ => [], []⟩

/-- serial.aca. -/
def aca (s : List Action) : Bool :=
  runB acaStep lwInit (add_commits s)

/-- One action of serial.strict's loop; none is `return False`. -/
def strictStep (st : LwState) : Action → Option LwState
  | .write i o =>
    match (st.last_write o).getLast? with
    | some w =>
      if w ∉ st.committed ∧ w ≠ i then none
      else some { st with last_write := upd st.last_write o (st.last_write o ++ [i]) }
    | none => some { st with last_write := upd st.last_write o (st.last_write o ++ [i]) }
  | .read i o =>
    match (st.last_write o).getLast? with
    | some w => if w ∉ st.committed ∧ w ≠ i then none else some st
    | none => some st
  | .commit i => some { st with committed := st.committed ++ [i] }
  | .abort i =>
    some { st with last_write := fun o => (st.last_write o).filter (fun j => decide (j ≠ i)) }

/-- serial.strict. -/
def strict (s : List Action) : Bool :=
  runB strictStep lwInit (add_commits s)

/-! Correctness of the bounded reachability computation behind hasCycleB:
hasCycleB decides the existence of a directed cycle. -/

/-- The edge relation of an edge list. -/
def edgeRel (E : List (Nat × Nat)) (x y : Nat) : Prop := (x, y) ∈ E

lemma mem_succsF {E : List (Nat × Nat)} {x y : Nat} : y ∈ succsF E x ↔ (x, y) ∈ E := by
  simp only [succsF, List.mem_toFinset, List.mem_map, List.mem_filter, decide_eq_true_eq]
  constructor
  · rintro ⟨⟨a, b⟩, ⟨hmem, ha⟩, hb⟩
    simp only at ha hb
    rw [← ha, ← hb]
    exact hmem
  · intro h
    exact ⟨(x, y), ⟨h, rfl⟩, rfl⟩

lemma subset_grow (E : List (Nat × Nat)) (S : Finset Nat) : S ⊆ grow E S :=
  Finset.subset_union_left

lemma grow_mem {E : List (Nat × Nat)} {S : Finset Nat} {y : Nat} (h : y ∈ grow E S) :
    y ∈ S ∨ ∃ x ∈ S, (x, y) ∈ E := by
  rcases Finset.mem_union.mp h with h | h
  · exact Or.inl h
  · rcases Finset.mem_biUnion.mp h with ⟨x, hx, hy⟩
    exact Or.inr ⟨x, hx, mem_succsF.mp hy⟩

lemma growN_sound {E : List (Nat × Nat)} :
    ∀ (n : Nat) (S : Finset Nat) (y : Nat), y ∈ growN E n S →
      ∃ x ∈ S, Relation.ReflTransGen (edgeRel E) x y := by
  intro n
  induction n with
  | zero => exact fun S y h => ⟨y, h, .refl⟩
  | succ n ih =>
    intro S y h
    obtain ⟨x, hx, hr⟩ := ih (grow E S) y h
    rcases grow_mem hx with hx2 | ⟨x0, hx0, he⟩
    · exact ⟨x, hx2, hr⟩
    · exact ⟨x0, hx0, .head he hr⟩

lemma growN_succ_comm (E : List (Nat × Nat)) :
    ∀ (n : Nat) (S : Finset Nat), growN E (n + 1) S = grow E (growN E n S) := by
  intro n
  induction n with
  | zero => intro S; rfl
  | succ n ih => intro S; exact ih (grow E S)

lemma growN_mono (E : List (Nat × Nat)) :
    ∀ (n : Nat) (S : Finset Nat), S ⊆ growN E n S := by
  intro n
  induction n with
  | zero => intro S; exact le_refl S
  | succ n ih => intro S; exact subset_trans (subset_grow E S) (ih (grow E S))

/-- All possible edge targets: every grown set stays inside the start
set united with these. -/
def targetsF (E : List (Nat × Nat)) : Finset Nat := (E.map Prod.snd).toFinset

lemma grow_subset (E : List (Nat × Nat)) (S : Finset Nat) : grow E S ⊆ S ∪ targetsF E := by
  apply Finset.union_subset Finset.subset_union_left
  intro y hy
  rcases Finset.mem_biUnion.mp hy with ⟨x, _, hy2⟩
  have hxy : (x, y) ∈ E := mem_succsF.mp hy2
  exact Finset.mem_union_right _ (List.mem_toFinset.mpr (List.mem_map.mpr ⟨(x, y), hxy, rfl⟩))

lemma growN_subset (E : List (Nat × Nat)) :
    ∀ (n : Nat) (S : Finset Nat), growN E n S ⊆ S ∪ targetsF E := by
  intro n
  induction n with
  | zero => intro S; exact Finset.subset_union_left
  | succ n ih =>
    intro S
    calc growN E (n + 1) S = growN E n (grow E S) := rfl
    _ ⊆ grow E S ∪ targetsF E := ih _
    _ ⊆ (S ∪ targetsF E) ∪ targetsF E :=
        Finset.union_subset_union (grow_subset E S) (subset_refl _)
    _ = S ∪ targetsF E := by rw [Finset.union_assoc, Finset.union_self]

lemma exists_stab (E : List (Nat × Nat)) (x : Nat) :
    ∃ k ≤ E.length, grow E (growN E k {x}) = growN E k {x} := by
  by_contra hcon
  push_neg at hcon
  have hcard : ∀ k, k ≤ E.length + 1 → k + 1 ≤ (growN E k {x}).card := by
    intro k
    induction k with
    | zero => intro _; simp [growN]
    | succ k ih =>
      intro hk
      have h1 := ih (Nat.le_of_succ_le hk)
      have hne := hcon k (by omega)
      have h2 : growN E k {x} ⊂ growN E (k + 1) {x} := by
        rw [growN_succ_comm]
        exact ssubset_of_subset_of_ne (subset_grow E _) (Ne.symm hne)
      have h3 := Finset.card_lt_card h2
      omega
  have hb : (growN E (E.length + 1) {x}).card ≤ E.length + 1 := by
    have h1 := Finset.card_le_card (growN_subset E (E.length + 1) {x})
    have h2 : ({x} ∪ targetsF E).card ≤ 1 + (targetsF E).card :=
      le_trans (Finset.card_union_le _ _) (by simp)
    have h3 : (targetsF E).card ≤ E.length :=
      le_trans (List.toFinset_card_le _) (by simp)
    omega
  have := hcard (E.length + 1) le_rfl
  omega

lemma reachSet_fixed (E : List (Nat × Nat)) (x : Nat) :
    grow E (reachSet E x) = reachSet E x := by
  obtain ⟨k, hk, hfix⟩ := exists_stab E x
  have hstab : ∀ m, growN E (k + m) {x} = growN E k {x} := by
    intro m
    induction m with
    | zero => rfl
    | succ m ih => rw [← Nat.add_assoc, growN_succ_comm, ih, hfix]
  have h1 : reachSet E x = growN E k {x} := by
    have he : E.length + 1 = k + (E.length + 1 - k) := by omega
    rw [reachSet, he, hstab]
  rw [h1, hfix]

lemma reachSet_complete {E : List (Nat × Nat)} {x y : Nat}
    (h : Relation.ReflTransGen (edgeRel E) x y) : y ∈ reachSet E x := by
  induction h with
  | refl => exact growN_mono E _ {x} (Finset.mem_singleton_self x)
  | tail hab hbc ih =>
    rw [← reachSet_fixed E x]
    exact Finset.mem_union_right _ (Finset.mem_biUnion.mpr ⟨_, ih, mem_succsF.mpr hbc⟩)

lemma reachSet_sound {E : List (Nat × Nat)} {x y : Nat} (h : y ∈ reachSet E x) :
    Relation.ReflTransGen (edgeRel E) x y := by
  obtain ⟨x2, hx2, hr⟩ := growN_sound _ _ _ h
  rwa [Finset.mem_singleton.mp hx2] at hr

lemma transGen_head_decomp {α : Type} {r : α → α → Prop} {a c : α}
    (h : Relation.TransGen r a c) : ∃ b, r a b ∧ Relation.ReflTransGen r b c := by
  induction h with
  | single hab => exact ⟨_, hab, .refl⟩
  | tail _ hbc ih =>
    obtain ⟨b, h1, h2⟩ := ih
    exact ⟨b, h1, h2.tail hbc⟩

lemma hasCycleB_iff (E : List (Nat × Nat)) :
    hasCycleB E = true ↔ ∃ z, Relation.TransGen (edgeRel E) z z := by
  simp only [hasCycleB, List.any_eq_true, decide_eq_true_eq]
  constructor
  · rintro ⟨⟨a, b⟩, he, hr⟩
    exact ⟨a, Relation.TransGen.head' he (reachSet_sound hr)⟩
  · rintro ⟨z, hz⟩
    obtain ⟨b, h1, h2⟩ := transGen_head_decomp hz
    exact ⟨(z, b), h1, reachSet_complete h2⟩

/-! The conflict graph's edge set, characterized declaratively. -/

/-- The declarative reading of a conflict edge: an action of transaction x
precedes, in schedule order, an action of transaction y, both on the same
object, from different transactions, at least one of the two a Write. -/
def ConfEdge (l : List Action) (x y : Nat) : Prop :=
  ∃ p q, ∃ hp : p < l.length, ∃ hq : q < l.length, p < q ∧
    (l.get ⟨p, hp⟩).i = x ∧ (l.get ⟨q, hq⟩).i = y ∧
    (l.get ⟨p, hp⟩).obj = (l.get ⟨q, hq⟩).obj ∧ x ≠ y ∧
    ((l.get ⟨p, hp⟩).op = Op.WRITE ∨ (l.get ⟨q, hq⟩).op = Op.WRITE)

lemma conflictPairs_iff : ∀ (l : List Action) (x y : Nat),
    (x, y) ∈ conflictPairs l ↔ ConfEdge l x y := by
  intro l
  induction l with
  | nil => intro x y; simp [conflictPairs, ConfEdge]
  | cons a rest ih =>
    intro x y
    constructor
    · intro h
      rcases List.mem_append.mp h with h | h
      · obtain ⟨b, hb, heq⟩ := List.mem_map.mp h
        obtain ⟨hbmem, hcond⟩ := List.mem_filter.mp hb
        rw [decide_eq_true_eq] at hcond
        obtain ⟨hobj, hne, hw⟩ := hcond
        obtain ⟨⟨q, hq⟩, hbq⟩ := List.mem_iff_get.mp hbmem
        rw [Prod.mk.injEq] at heq
        subst hbq
        exact ⟨0, q + 1, Nat.succ_pos _, Nat.succ_lt_succ hq, Nat.succ_pos _,
          heq.1, heq.2, hobj, by rw [← heq.1, ← heq.2]; exact hne, hw⟩
      · obtain ⟨p, q, hp, hq, hlt, h1, h2, h3, h4, h5⟩ := (ih x y).mp h
        exact ⟨p + 1, q + 1, Nat.succ_lt_succ hp, Nat.succ_lt_succ hq,
          Nat.succ_lt_succ hlt, h1, h2, h3, h4, h5⟩
    · rintro ⟨p, q, hp, hq, hlt, h1, h2, h3, h4, h5⟩
      rcases q with _ | q
      · omega
      rcases p with _ | p
      · apply List.mem_append.mpr
        left
        apply List.mem_map.mpr
        refine ⟨rest.get ⟨q, Nat.lt_of_succ_lt_succ hq⟩, List.mem_filter.mpr ⟨List.get_mem _ _ _, ?_⟩, ?_⟩
        · rw [decide_eq_true_eq]
          refine ⟨h3, ?_, h5⟩
          intro hc
          exact h4 (h1 ▸ h2 ▸ (hc : ((a :: rest).get ⟨0, hp⟩).i = ((a :: rest).get ⟨q + 1, hq⟩).i))
        · rw [Prod.mk.injEq]
          exact ⟨h1, h2⟩
      · apply List.mem_append.mpr
        right
        apply (ih x y).mpr
        exact ⟨p, q, Nat.lt_of_succ_lt_succ hp, Nat.lt_of_succ_lt_succ hq,
          Nat.lt_of_succ_lt_succ hlt, h1, h2, h3, h4, h5⟩

lemma mem_foldl_insertId : ∀ (s : List Action) (acc : List Nat) (x : Nat),
    x ∈ s.foldl (fun js a => insertId js a.i) acc ↔ x ∈ acc ∨ ∃ a ∈ s, a.i = x := by
  intro s
  induction s with
  | nil => intro acc x; simp
  | cons a rest ih =>
    intro acc x
    rw [List.foldl_cons, ih]
    constructor
    · rintro (h | ⟨b, hb, hbx⟩)
      · unfold insertId at h
        by_cases hmem : a.i ∈ acc
        · rw [if_pos hmem] at h
          exact Or.inl h
        · rw [if_neg hmem] at h
          rcases List.mem_append.mp h with h | h
          · exact Or.inl h
          · exact Or.inr ⟨a, List.mem_cons_self a rest, (List.mem_singleton.mp h).symm⟩
      · exact Or.inr ⟨b, List.mem_cons_of_mem a hb, hbx⟩
    · rintro (h | ⟨b, hb, hbx⟩)
      · left
        unfold insertId
        by_cases hmem : a.i ∈ acc
        · rwa [if_pos hmem]
        · rw [if_neg hmem]
          exact List.mem_append_left _ h
      · rcases List.mem_cons.mp hb with rfl | hb2
        · left
          unfold insertId
          by_cases hmem : b.i ∈ acc
          · rw [if_pos hmem, ← hbx] at *
            exact hmem
          · rw [if_neg hmem]
            exact List.mem_append_right _ (List.mem_singleton.mpr hbx.symm)
        · exact Or.inr ⟨b, hb2, hbx⟩

lemma mem_transaction_ids (s : List Action) (x : Nat) :
    x ∈ transaction_ids s ↔ ∃ a ∈ s, a.i = x := by
  rw [transaction_ids, mem_foldl_insertId]
  simp

lemma mem_aborted_ids (s : List Action) (x : Nat) :
    x ∈ aborted_ids s ↔ ∃ b ∈ s, b.op = Op.ABORT ∧ b.i = x := by
  simp only [aborted_ids, List.mem_map, List.mem_filter, decide_eq_true_eq]
  constructor
  · rintro ⟨b, ⟨hb, hop⟩, hbx⟩
    exact ⟨b, hb, hop, hbx⟩
  · rintro ⟨b, hb, hop, hbx⟩
    exact ⟨b, ⟨hb, hop⟩, hbx⟩

lemma mem_drop_aborts (s : List Action) (a : Action) :
    a ∈ drop_aborts s ↔ a ∈ s ∧ ¬ ∃ b ∈ s, b.op = Op.ABORT ∧ b.i = a.i := by
  simp only [drop_aborts, List.mem_filter, decide_eq_true_eq, mem_aborted_ids]

/-- C2: conflict_serializable is true iff the conflict graph (aborted
transactions removed, nodes the surviving ids) has no directed cycle, with
the edge set exactly the declarative conflicting-pair description. -/
theorem claim_c2 (s : List Action) :
    (conflict_serializable s = true ↔
      ¬ ∃ z, Relation.TransGen (edgeRel (conflict_graph s).edges) z z)
    ∧ (∀ a, a ∈ drop_aborts s ↔ a ∈ s ∧ ¬ ∃ b ∈ s, b.op = Op.ABORT ∧ b.i = a.i)
    ∧ (∀ x, x ∈ (conflict_graph s).nodes ↔ ∃ a ∈ drop_aborts s, a.i = x)
    ∧ (∀ x y, (x, y) ∈ (conflict_graph s).edges ↔ ConfEdge (drop_aborts s) x y) := by
  refine ⟨?_, fun a => mem_drop_aborts s a, fun x => mem_transaction_ids _ x,
    fun x y => conflictPairs_iff _ x y⟩
  rw [conflict_serializable, ← hasCycleB_iff]
  cases hasCycleB (conflict_graph s).edges <;> simp

/-- The conclusion of C10: an edge of the conflict graph comes from an
ordered conflicting pair of Read/Write actions of the abort-free schedule. -/
def ConfEdgeRW (l : List Action) (e : Nat × Nat) : Prop :=
  ∃ p q, ∃ hp : p < l.length, ∃ hq : q < l.length, p < q ∧
    (l.get ⟨p, hp⟩).i = e.1 ∧ (l.get ⟨q, hq⟩).i = e.2 ∧
    (l.get ⟨p, hp⟩).obj = (l.get ⟨q, hq⟩).obj ∧
    ((l.get ⟨p, hp⟩).op = Op.READ ∨ (l.get ⟨p, hp⟩).op = Op.WRITE) ∧
    ((l.get ⟨q, hq⟩).op = Op.READ ∨ (l.get ⟨q, hq⟩).op = Op.WRITE) ∧
    ((l.get ⟨p, hp⟩).op = Op.WRITE ∨ (l.get ⟨q, hq⟩).op = Op.WRITE)

lemma obj_isSome_of_write (a : Action) (h : a.op = Op.WRITE) : ∃ o, a.obj = some o := by
  cases a <;> simp [Action.op, Action.obj] at *

lemma rw_of_obj_some (a : Action) (o : String) (h : a.obj = some o) :
    a.op = Op.READ ∨ a.op = Op.WRITE := by
  cases a <;> simp [Action.op, Action.obj] at *

/-- C10: conflict-graph edges join distinct transaction ids, and every edge
comes from a pair of Read/Write actions (never a Commit or an Abort) of the
schedule with aborted transactions removed. -/
theorem claim_c10 (s : List Action) (e : Nat × Nat) (he : e ∈ (conflict_graph s).edges) :
    e.1 ≠ e.2 ∧ ConfEdgeRW (drop_aborts s) e := by
  obtain ⟨x, y⟩ := e
  obtain ⟨p, q, hp, hq, hlt, h1, h2, h3, h4, h5⟩ := (conflictPairs_iff _ x y).mp he
  refine ⟨h4, p, q, hp, hq, hlt, h1, h2, h3, ?_, ?_, h5⟩
  · rcases h5 with h5 | h5
    · exact Or.inr h5
    · obtain ⟨o, ho⟩ := obj_isSome_of_write _ h5
      exact rw_of_obj_some _ o (h3.trans ho)
  · rcases h5 with h5 | h5
    · obtain ⟨o, ho⟩ := obj_isSome_of_write _ h5
      exact rw_of_obj_some _ o (h3.symm.trans ho)
    · exact Or.inr h5

/-- The spec's Scenario B schedule, the test suite's exercise6. -/
def exB : List Action := [.read 1 "X", .write 2 "X", .write 1 "X", .commit 2, .commit 1]

theorem claim_c10_witness :
    (1, 2) ∈ (conflict_graph exB).edges ∧
    ((1, 2) : Nat × Nat).1 ≠ ((1, 2) : Nat × Nat).2 ∧ ConfEdgeRW (drop_aborts exB) (1, 2) :=
  ⟨by decide, claim_c10 exB (1, 2) (by decide)⟩

/-- C3 as stated is false on the code: on Scenario B's schedule the engine
returns recoverable = true and aca = true (its own test suite asserts both). -/
theorem claim_c3_counterexample :
    ¬ (conflict_serializable exB = false ∧ recoverable exB = false ∧
       aca exB = false ∧ strict exB = false) := by
  decide

/-- C3 amended: on Scenario B's schedule, conflict_serializable is false
(the conflict graph has the cycle 1→2→1) and strict is false, while
recoverable and aca are true. -/
theorem claim_c3_amended :
    conflict_serializable exB = false ∧ (1, 2) ∈ (conflict_graph exB).edges ∧
    (2, 1) ∈ (conflict_graph exB).edges ∧ recoverable exB = true ∧
    aca exB = true ∧ strict exB = false := by
  decide

/-- The schedule on which C1's claimed contract fails: view_serializable
returns true through the conflict-serializability shortcut, yet no
permutation of the per-transaction partitions is view-equivalent to the
schedule under the engine's own view_equivalent (both serial orders fail
the ordered first-reader-list comparison). -/
def c1Input : List Action := [.read 1 "A", .read 2 "A", .write 2 "B", .read 1 "B"]

/-- C1: the two shortcut paths do change the truth value.  On c1Input the
function returns true while the exhaustive permutation search it is claimed
equivalent to finds no view-equivalent serial schedule. -/
theorem claim_c1_eval :
    conflict_serializable (drop_aborts c1Input) = true ∧
    view_serializable c1Input = true ∧
    ∀ p ∈ perms (transactions (drop_aborts c1Input)),
      ¬ view_equivalent (flatten p) (drop_aborts c1Input) = some true := by
  decide

/-! C5: conflict-serializability makes view_serializable return true at its
first branch; dropping aborted transactions is idempotent. -/

lemma drop_aborts_idem (s : List Action) : drop_aborts (drop_aborts s) = drop_aborts s := by
  apply List.filter_eq_self.mpr
  intro a ha
  rw [decide_eq_true_eq]
  intro hmem
  obtain ⟨b, hb, hop, hbi⟩ := (mem_aborted_ids _ _).mp hmem
  have ha2 := (mem_drop_aborts s a).mp ha
  have hb2 := (mem_drop_aborts s b).mp hb
  exact ha2.2 ⟨b, hb2.1, hop, hbi⟩

/-- C5: conflict_serializable implies view_serializable. -/
theorem claim_c5 (s : List Action) (h : conflict_serializable s = true) :
    view_serializable s = true := by
  have h2 : conflict_serializable (drop_aborts s) = true := by
    simp only [conflict_serializable, conflict_graph] at h ⊢
    rw [drop_aborts_idem]
    exact h
  simp [view_serializable, h2]

/-- A schedule all five classifiers accept (the test suite's schedule6). -/
def exC : List Action := [.write 1 "A", .read 1 "A", .commit 1]

theorem claim_c5_witness : view_serializable exC = true :=
  claim_c5 exC (by decide)

/-! C4: the implication chain strict ⇒ aca ⇒ recoverable. -/

lemma mem_insertId {l : List Nat} {x y : Nat} : x ∈ insertId l y ↔ x ∈ l ∨ x = y := by
  unfold insertId
  by_cases h : y ∈ l
  · rw [if_pos h]
    constructor
    · exact Or.inl
    · rintro (h2 | rfl)
      · exact h2
      · exact h
  · rw [if_neg h]
    simp

lemma strictStep_imp_acaStep (st st2 : LwState) (a : Action)
    (h : strictStep st a = some st2) : acaStep st a = some st2 := by
  cases a with
  | read i o => exact h
  | write i o =>
    simp only [strictStep] at h
    simp only [acaStep]
    cases hgl : (st.last_write o).getLast? with
    | none =>
      simp only [hgl] at h
      exact h
    | some w =>
      simp only [hgl] at h
      by_cases hc : w ∉ st.committed ∧ w ≠ i
      · simp only [if_pos hc] at h
        simp at h
      · simp only [if_neg hc] at h
        exact h
  | commit i => exact h
  | abort i => exact h

lemma runB_mono {σ : Type} (f g : σ → Action → Option σ)
    (hfg : ∀ st a st2, f st a = some st2 → g st a = some st2) :
    ∀ (l : List Action) (st : σ), runB f st l = true → runB g st l = true := by
  intro l
  induction l with
  | nil => intro st _; rfl
  | cons a rest ih =>
    intro st h
    simp only [runB] at h ⊢
    cases hf : f st a with
    | none =>
      simp only [hf] at h
      simp at h
    | some st2 =>
      simp only [hf] at h
      simp only [hfg st a st2 hf]
      exact ih st2 h

lemma aca_imp_rec_run : ∀ (l : List Action) (sa : LwState) (sr : RecState),
    (∀ o, sr.written_by o = sa.last_write o) →
    sr.committed = sa.committed →
    (∀ i j, j ∈ sr.read_from i → j ∈ sr.committed) →
    runB acaStep sa l = true → runB recStep sr l = true := by
  intro l
  induction l with
  | nil => intro sa sr _ _ _ _; rfl
  | cons a rest ih =>
    intro sa sr hwb hcom hdep h
    cases a with
    | write i o =>
      simp only [runB, acaStep] at h
      simp only [runB, recStep]
      refine ih _ _ ?_ ?_ ?_ h
      · intro o2
        simp only [upd]
        by_cases ho : o2 = o
        · rw [if_pos ho, if_pos ho, hwb o]
        · rw [if_neg ho, if_neg ho]
          exact hwb o2
      · exact hcom
      · exact hdep
    | read i o =>
      simp only [runB, acaStep] at h
      simp only [runB, recStep]
      rw [hwb o]
      cases hgl : (sa.last_write o).getLast? with
      | none =>
        simp only [hgl] at h ⊢
        exact ih _ _ hwb hcom hdep h
      | some w =>
        simp only [hgl] at h ⊢
        by_cases hc : w ∉ sa.committed ∧ w ≠ i
        · simp only [if_pos hc] at h
          simp at h
        · simp only [if_neg hc] at h
          by_cases hwi : w = i
          · simp only [if_neg (show ¬ w ≠ i from fun h2 => h2 hwi)]
            exact ih _ _ hwb hcom hdep h
          · simp only [if_pos hwi]
            have hcm : w ∈ sa.committed := by
              by_contra hn
              exact hc ⟨hn, hwi⟩
            refine ih _ _ ?_ ?_ ?_ h
            · exact hwb
            · exact hcom
            · intro i2 j hj
              simp only [upd] at hj
              by_cases hi2 : i2 = i
              · rw [if_pos hi2] at hj
                rcases mem_insertId.mp hj with hj2 | rfl
                · exact hdep i j hj2
                · rw [hcom]
                  exact hcm
              · rw [if_neg hi2] at hj
                exact hdep i2 j hj
    | commit i =>
      simp only [runB, acaStep] at h
      simp only [runB, recStep]
      have hall : (sr.read_from i).all (fun j => decide (j ∈ sr.committed)) = true := by
        rw [List.all_eq_true]
        intro j hj
        rw [decide_eq_true_eq]
        exact hdep i j hj
      simp only [if_pos hall]
      refine ih _ _ ?_ ?_ ?_ h
      · exact hwb
      · simp only
        rw [hcom]
      · intro i2 j hj
        exact List.mem_append_left _ (hdep i2 j hj)
    | abort i =>
      simp only [runB, acaStep] at h
      simp only [runB, recStep]
      refine ih _ _ ?_ ?_ ?_ h
      · intro o2
        simp only
        rw [hwb o2]
      · exact hcom
      · exact hdep

/-- C4: for every schedule, strict implies aca and aca implies recoverable. -/
theorem claim_c4 (s : List Action) :
    (strict s = true → aca s = true) ∧ (aca s = true → recoverable s = true) := by
  constructor
  · intro h
    exact runB_mono strictStep acaStep (fun st a st2 h2 => strictStep_imp_acaStep st st2 a h2) _ _ h
  · intro h
    apply aca_imp_rec_run _ lwInit recInit (fun _ => rfl) rfl ?_ h
    intro i j hj
    exact absurd hj (List.not_mem_nil j)

theorem claim_c4_witness : aca exC = true ∧ recoverable exC = true :=
  ⟨(claim_c4 exC).1 (by decide), (claim_c4 exC).2 ((claim_c4 exC).1 (by decide))⟩

/-! C6: the rollback asymmetry of recoverable.  A read-from dependency on a
transaction that never commits forces recoverable to return false once the
reader's Commit is processed. -/

/-- The state after one action, keeping the old state on failure (the state
recoverable would be in had it not returned; write, read and abort never
fail, so the tracked dictionaries evolve identically). -/
def advOf {σ : Type} (step : σ → Action → Option σ) (st : σ) (a : Action) : σ :=
  (step st a).getD st

lemma runB_append_true {σ : Type} (step : σ → Action → Option σ) :
    ∀ (l1 l2 : List Action) (st : σ), runB step st (l1 ++ l2) = true →
      runB step st l1 = true ∧ runB step (l1.foldl (advOf step) st) l2 = true := by
  intro l1
  induction l1 with
  | nil => exact fun l2 st h => ⟨rfl, h⟩
  | cons a l1 ih =>
    intro l2 st h
    rw [List.cons_append] at h
    simp only [runB] at h
    cases hs : step st a with
    | none =>
      simp only [hs] at h
      simp at h
    | some st2 =>
      simp only [hs] at h
      obtain ⟨h1, h2⟩ := ih l2 st2 h
      constructor
      · simp only [runB, hs]
        exact h1
      · rw [List.foldl_cons]
        have hadv : advOf step st a = st2 := by simp [advOf, hs]
        rw [hadv]
        exact h2

lemma runB_cons_true {σ : Type} (step : σ → Action → Option σ) (st : σ) (a : Action)
    (l : List Action) (h : runB step st (a :: l) = true) :
    ∃ st2, step st a = some st2 ∧ runB step st2 l = true := by
  simp only [runB] at h
  cases hs : step st a with
  | none =>
    simp only [hs] at h
    simp at h
  | some st2 =>
    simp only [hs] at h
    exact ⟨st2, rfl, h⟩

lemma advOf_rec_read_from_mono (st : RecState) (a : Action) (u j : Nat)
    (h : j ∈ st.read_from u) : j ∈ (advOf recStep st a).read_from u := by
  cases a with
  | write i o => simpa [advOf, recStep] using h
  | read i o =>
    simp only [advOf, recStep]
    cases hgl : (st.written_by o).getLast? with
    | none => simpa using h
    | some w =>
      by_cases hwi : w ≠ i
      · simp only [if_pos hwi, Option.getD_some, upd]
        by_cases hu : u = i
        · rw [if_pos hu]
          exact mem_insertId.mpr (Or.inl (hu ▸ h))
        · rw [if_neg hu]
          exact h
      · simp only [if_neg hwi, Option.getD_some]
        exact h
  | commit i =>
    simp only [advOf, recStep]
    by_cases hall : (st.read_from i).all (fun j2 => decide (j2 ∈ st.committed)) = true
    · simp only [if_pos hall, Option.getD_some]
      exact h
    · simp only [if_neg hall]
      exact h
  | abort i => simpa [advOf, recStep] using h

lemma foldl_adv_read_from_mono (l : List Action) (u j : Nat) :
    ∀ st : RecState, j ∈ st.read_from u → j ∈ (l.foldl (advOf recStep) st).read_from u := by
  induction l with
  | nil => exact fun st h => h
  | cons a l ih =>
    intro st h
    rw [List.foldl_cons]
    exact ih _ (advOf_rec_read_from_mono st a u j h)

lemma advOf_rec_committed_src (st : RecState) (a : Action) (j : Nat)
    (h : j ∈ (advOf recStep st a).committed) : j ∈ st.committed ∨ a = Action.commit j := by
  cases a with
  | write i o =>
    left
    simpa [advOf, recStep] using h
  | read i o =>
    left
    simp only [advOf, recStep] at h
    cases hgl : (st.written_by o).getLast? with
    | none => simpa [hgl] using h
    | some w =>
      simp only [hgl] at h
      by_cases hwi : w ≠ i
      · simpa only [if_pos hwi, Option.getD_some] using h
      · simpa only [if_neg hwi, Option.getD_some] using h
  | commit i =>
    simp only [advOf, recStep] at h
    by_cases hall : (st.read_from i).all (fun j2 => decide (j2 ∈ st.committed)) = true
    · simp only [if_pos hall, Option.getD_some] at h
      rcases List.mem_append.mp h with h2 | h2
      · exact Or.inl h2
      · right
        rw [List.mem_singleton.mp h2]
    · simp only [if_neg hall] at h
      exact Or.inl h
  | abort i =>
    left
    simpa [advOf, recStep] using h

lemma foldl_adv_committed_src (l : List Action) :
    ∀ (st : RecState) (j : Nat), j ∈ (l.foldl (advOf recStep) st).committed →
      j ∈ st.committed ∨ Action.commit j ∈ l := by
  induction l with
  | nil => exact fun st j h => Or.inl h
  | cons a l ih =>
    intro st j h
    rw [List.foldl_cons] at h
    rcases ih _ j h with h2 | h2
    · rcases advOf_rec_committed_src st a j h2 with h3 | h3
      · exact Or.inl h3
      · exact Or.inr (h3 ▸ List.mem_cons_self a l)
    · exact Or.inr (List.mem_cons_of_mem a h2)

lemma recStep_read_records (st : RecState) (u t : Nat) (o : String)
    (hgl : (st.written_by o).getLast? = some t) (htu : t ≠ u) :
    t ∈ (advOf recStep st (.read u o)).read_from u := by
  simp only [advOf, recStep, hgl, if_pos htu, Option.getD_some, upd, if_pos rfl]
  exact mem_insertId.mpr (Or.inr rfl)

/-- C6: if some transaction u reads an object whose most recent writer in
recoverable's tracked state is a different transaction t, and no Commit of t
occurs before u's Commit is processed, then recoverable returns false. -/
theorem claim_c6 (s : List Action) (u t : Nat) (o : String) (k m : Nat)
    (hkm : k < m)
    (hk : (add_commits s)[k]? = some (Action.read u o))
    (hm : (add_commits s)[m]? = some (Action.commit u))
    (ht : ((((add_commits s).take k).foldl (advOf recStep) recInit).written_by o).getLast? = some t)
    (htu : t ≠ u)
    (hnc : ∀ j, j < m → ¬ (add_commits s)[j]? = some (Action.commit t)) :
    recoverable s = false := by
  cases hb : recoverable s with
  | false => rfl
  | true =>
    exfalso
    have hrun : runB recStep recInit (add_commits s) = true := hb
    obtain ⟨hmL, hmv⟩ := List.getElem?_eq_some.mp hm
    obtain ⟨hkL, hkv⟩ := List.getElem?_eq_some.mp hk
    have hsplit : add_commits s =
        (add_commits s).take m ++ (Action.commit u :: (add_commits s).drop (m + 1)) := by
      conv_lhs => rw [← List.take_append_drop m (add_commits s)]
      rw [List.drop_eq_getElem_cons hmL, hmv]
    rw [hsplit] at hrun
    obtain ⟨h1, h2⟩ := runB_append_true recStep _ _ recInit hrun
    obtain ⟨st2, hstep, _⟩ := runB_cons_true recStep _ _ _ h2
    have hall : ((((add_commits s).take m).foldl (advOf recStep) recInit).read_from u).all
        (fun j => decide (j ∈ (((add_commits s).take m).foldl (advOf recStep) recInit).committed)) = true := by
      by_contra hno
      simp only [recStep, if_neg hno] at hstep
      exact Option.noConfusion hstep
    have htake : (add_commits s).take m =
        (add_commits s).take k ++
          (Action.read u o :: ((add_commits s).drop (k + 1)).take (m - k - 1)) := by
      obtain ⟨d, hd⟩ : ∃ d, m - k = d + 1 := ⟨m - k - 1, by omega⟩
      have hd2 : m - k - 1 = d := by omega
      have hm2 : m = k + (d + 1) := by omega
      rw [hd2]
      conv_lhs => rw [hm2]
      rw [List.take_add]
      congr 1
      rw [List.drop_eq_getElem_cons hkL, hkv, List.take_succ_cons]
    have htdep : t ∈ ((((add_commits s).take m).foldl (advOf recStep) recInit).read_from u) := by
      rw [htake, List.foldl_append, List.foldl_cons]
      exact foldl_adv_read_from_mono _ u t _ (recStep_read_records _ u t o ht htu)
    have htcom : t ∈ (((add_commits s).take m).foldl (advOf recStep) recInit).committed := by
      have := List.all_eq_true.mp hall t htdep
      simpa using this
    rcases foldl_adv_committed_src _ recInit t htcom with h3 | h3
    · exact absurd h3 (List.not_mem_nil t)
    · obtain ⟨j, hj, hjv⟩ := List.mem_iff_getElem.mp h3
      have hjm : j < m := by
        have := hj
        rw [List.length_take] at this
        omega
      have hjL : j < (add_commits s).length := by
        have := hj
        rw [List.length_take] at this
        omega
      apply hnc j hjm
      rw [List.getElem?_eq_some]
      refine ⟨hjL, ?_⟩
      rw [← hjv, List.getElem_take]

/-- A schedule exercising C6: transaction 1 reads A from transaction 2's
write, then 2 aborts and 1 commits. -/
def exD : List Action := [.write 2 "A", .read 1 "A", .abort 2, .commit 1]

theorem claim_c6_witness : recoverable exD = false :=
  claim_c6 exD 1 2 "A" 1 3 (by decide) (by decide) (by decide) (by decide)
    (by decide) (by decide)

/-! C7: the shape of add_commits.  transaction_ids is first-occurrence
deduplication of the id sequence, so the appended commits are exactly one
per unterminated transaction, in first-appearance order. -/

/-- First-occurrence deduplication of a list of ids. -/
def dedupF : List Nat → List Nat
  | [] => []
  | x :: l => x :: (dedupF l).filter (fun y => decide (y ≠ x))

lemma foldl_insertId_dedupF : ∀ (ids : List Nat) (acc : List Nat),
    ids.foldl insertId acc = acc ++ (dedupF ids).filter (fun y => decide (y ∉ acc)) := by
  intro ids
  induction ids with
  | nil => intro acc; simp [dedupF]
  | cons x ids ih =>
    intro acc
    rw [List.foldl_cons, ih]
    by_cases hmem : x ∈ acc
    · have hins : insertId acc x = acc := if_pos hmem
      rw [hins, dedupF]
      have hx : (decide (x ∉ acc)) = false := by simp [hmem]
      rw [List.filter_cons, hx]
      simp only [Bool.false_eq_true, if_false]
      rw [List.filter_filter]
      congr 1
      apply List.filter_congr
      intro y _
      by_cases h1 : y ∈ acc
      · by_cases h2 : y = x <;> simp [h1, h2, hmem]
      · have h2 : y ≠ x := fun hc => h1 (hc ▸ hmem)
        simp [h1, h2]
    · have hins : insertId acc x = acc ++ [x] := if_neg hmem
      rw [hins, dedupF]
      have hx : (decide (x ∉ acc)) = true := by simp [hmem]
      rw [List.filter_cons, hx]
      simp only [if_true]
      rw [List.append_assoc, List.singleton_append, List.filter_filter]
      congr 2
      apply List.filter_congr
      intro y _
      by_cases h1 : y ∈ acc <;> by_cases h2 : y = x <;>
        simp [h1, h2, List.mem_append]

lemma transaction_ids_eq_dedupF (s : List Action) :
    transaction_ids s = dedupF (s.map Action.i) := by
  have h1 : transaction_ids s = (s.map Action.i).foldl insertId [] := by
    rw [transaction_ids, List.foldl_map]
  rw [h1, foldl_insertId_dedupF]
  simp

lemma mem_dedupF : ∀ (l : List Nat) (x : Nat), x ∈ dedupF l ↔ x ∈ l := by
  intro l
  induction l with
  | nil => intro x; simp [dedupF]
  | cons a l ih =>
    intro x
    simp only [dedupF, List.mem_cons, List.mem_filter, decide_eq_true_eq]
    constructor
    · rintro (rfl | ⟨h1, _⟩)
      · exact Or.inl rfl
      · exact Or.inr ((ih x).mp h1)
    · rintro (rfl | h)
      · exact Or.inl rfl
      · by_cases hx : x = a
        · exact Or.inl hx
        · exact Or.inr ⟨(ih x).mpr h, hx⟩

lemma nodup_dedupF : ∀ l : List Nat, (dedupF l).Nodup := by
  intro l
  induction l with
  | nil => simp [dedupF]
  | cons a l ih =>
    rw [dedupF, List.nodup_cons]
    constructor
    · intro hmem
      have h2 := (List.mem_filter.mp hmem).2
      rw [decide_eq_true_eq] at h2
      exact h2 rfl
    · exact ih.filter _

lemma count_dedupF (l : List Nat) (x : Nat) :
    (dedupF l).count x = if x ∈ l then 1 else 0 := by
  by_cases h : x ∈ l
  · rw [if_pos h]
    exact List.count_eq_one_of_mem (nodup_dedupF l) ((mem_dedupF l x).mpr h)
  · rw [if_neg h]
    exact List.count_eq_zero_of_not_mem (fun hc => h ((mem_dedupF l x).mp hc))

lemma pairwise_dedupF : ∀ l : List Nat,
    (dedupF l).Pairwise (fun x y => l.indexOf x < l.indexOf y) := by
  intro l
  induction l with
  | nil => simp [dedupF]
  | cons a l ih =>
    rw [dedupF, List.pairwise_cons]
    constructor
    · intro y hy
      obtain ⟨_, hy2⟩ := List.mem_filter.mp hy
      rw [decide_eq_true_eq] at hy2
      rw [List.indexOf_cons_self, List.indexOf_cons_ne l (Ne.symm hy2)]
      exact Nat.succ_pos _
    · apply List.Pairwise.imp_of_mem ?_ (ih.filter _)
      intro x y hx hy hxy
      have hxa : x ≠ a := by
        have := (List.mem_filter.mp hx).2
        rwa [decide_eq_true_eq] at this
      have hya : y ≠ a := by
        have := (List.mem_filter.mp hy).2
        rwa [decide_eq_true_eq] at this
      rw [List.indexOf_cons_ne l (Ne.symm hxa), List.indexOf_cons_ne l (Ne.symm hya)]
      omega

lemma mem_ended_ids (s : List Action) (x : Nat) :
    x ∈ ended_ids s ↔ ∃ b ∈ s, (b.op = Op.COMMIT ∨ b.op = Op.ABORT) ∧ b.i = x := by
  simp only [ended_ids, List.mem_map, List.mem_filter, decide_eq_true_eq]
  constructor
  · rintro ⟨b, ⟨hb, hop⟩, hbx⟩
    exact ⟨b, hb, hop, hbx⟩
  · rintro ⟨b, hb, hop, hbx⟩
    exact ⟨b, ⟨hb, hop⟩, hbx⟩

lemma commit_injective : Function.Injective Action.commit := by
  intro a b h
  injection h

/-- C7: add_commits appends, after the schedule's own actions, exactly one
synthetic Commit per transaction without a Commit or Abort, none for the
others, in first-appearance order of transaction id. -/
theorem claim_c7 (s : List Action) :
    ∃ tail, add_commits s = s ++ tail
      ∧ (∀ a ∈ tail, ∃ i, a = Action.commit i)
      ∧ (∀ i, tail.count (Action.commit i) =
          if (∃ a ∈ s, a.i = i) ∧ ¬ (∃ a ∈ s, (a.op = Op.COMMIT ∨ a.op = Op.ABORT) ∧ a.i = i)
          then 1 else 0)
      ∧ (tail.map Action.i).Pairwise
          (fun x y => (s.map Action.i).indexOf x < (s.map Action.i).indexOf y) := by
  refine ⟨((transaction_ids s).filter (fun i => decide (i ∉ ended_ids s))).map Action.commit,
    rfl, ?_, ?_, ?_⟩
  · intro a ha
    obtain ⟨i, _, rfl⟩ := List.mem_map.mp ha
    exact ⟨i, rfl⟩
  · intro i
    rw [List.count_map_of_injective _ Action.commit commit_injective]
    by_cases hend : i ∈ ended_ids s
    · have hp : (decide (i ∉ ended_ids s)) = false := by simp [hend]
      have hnot : i ∉ (transaction_ids s).filter (fun j => decide (j ∉ ended_ids s)) := by
        intro hc
        rw [List.mem_filter, hp] at hc
        exact absurd hc.2 (by simp)
      rw [List.count_eq_zero_of_not_mem hnot, if_neg]
      intro hc
      exact hc.2 ((mem_ended_ids s i).mp hend)
    · have hp : (decide (i ∉ ended_ids s)) = true := by simp [hend]
      rw [@List.count_filter Nat _ _ (fun j => decide (j ∉ ended_ids s)) i (transaction_ids s) hp, transaction_ids_eq_dedupF, count_dedupF]
      by_cases hmem : i ∈ s.map Action.i
      · rw [if_pos hmem, if_pos]
        refine ⟨?_, fun hc => hend ((mem_ended_ids s i).mpr hc)⟩
        obtain ⟨a, ha, hai⟩ := List.mem_map.mp hmem
        exact ⟨a, ha, hai⟩
      · rw [if_neg hmem, if_neg]
        intro hc
        obtain ⟨a, ha, hai⟩ := hc.1
        exact hmem (List.mem_map.mpr ⟨a, ha, hai⟩)
  · have h0 : (((transaction_ids s).filter (fun i => decide (i ∉ ended_ids s))).map
        Action.commit).map Action.i =
        (transaction_ids s).filter (fun i => decide (i ∉ ended_ids s)) := by
      rw [List.map_map]
      have hcomp : Action.i ∘ Action.commit = id := funext (fun _ => rfl)
      rw [hcomp, List.map_id]
    rw [h0, transaction_ids_eq_dedupF]
    exact (pairwise_dedupF (s.map Action.i)).filter _

/-! C8: view_equivalent's precondition and its boolean content.  The
bounded dictionary comparisons coincide with extensional equality because
both maps are default outside the objects of the two schedules. -/

lemma frAux_out : ∀ (l : List Action) (fr : String → List Nat) (written : List String)
    (o : String), o ∉ l.filterMap Action.obj → frAux l fr written o = fr o := by
  intro l
  induction l with
  | nil => intro fr written o _; rfl
  | cons a l ih =>
    intro fr written o ho
    cases a with
    | read i o2 =>
      rw [List.filterMap_cons_some (show Action.obj (.read i o2) = some o2 from rfl)] at ho
      have hne : o ≠ o2 := fun hc => ho (hc ▸ List.mem_cons_self _ _)
      have hrest : o ∉ l.filterMap Action.obj := fun hc => ho (List.mem_cons_of_mem _ hc)
      simp only [frAux]
      by_cases hw : o2 ∈ written
      · rw [if_pos hw]
        exact ih fr written o hrest
      · rw [if_neg hw, ih _ written o hrest]
        simp [upd, hne]
    | write i o2 =>
      rw [List.filterMap_cons_some (show Action.obj (.write i o2) = some o2 from rfl)] at ho
      have hrest : o ∉ l.filterMap Action.obj := fun hc => ho (List.mem_cons_of_mem _ hc)
      simp only [frAux]
      exact ih fr _ o hrest
    | commit i =>
      rw [List.filterMap_cons_none (show Action.obj (.commit i) = none from rfl)] at ho
      simp only [frAux]
      exact ih fr written o ho
    | abort i =>
      rw [List.filterMap_cons_none (show Action.obj (.abort i) = none from rfl)] at ho
      simp only [frAux]
      exact ih fr written o ho

lemma first_read_out (s : List Action) (o : String) (h : o ∉ objectsOf s) :
    first_read s o = [] :=
  frAux_out s _ [] o h

lemma foldl_lwStep_out : ∀ (l : List Action) (lw : String → Option Nat) (o : String),
    o ∉ l.filterMap Action.obj → l.foldl lwStep lw o = lw o := by
  intro l
  induction l with
  | nil => intro lw o _; rfl
  | cons a l ih =>
    intro lw o ho
    cases a with
    | read i o2 =>
      rw [List.filterMap_cons_some (show Action.obj (.read i o2) = some o2 from rfl)] at ho
      exact ih lw o (fun hc => ho (List.mem_cons_of_mem _ hc))
    | write i o2 =>
      rw [List.filterMap_cons_some (show Action.obj (.write i o2) = some o2 from rfl)] at ho
      have hne : o ≠ o2 := fun hc => ho (hc ▸ List.mem_cons_self _ _)
      rw [List.foldl_cons, ih _ o (fun hc => ho (List.mem_cons_of_mem _ hc))]
      simp [lwStep, upd, hne]
    | commit i =>
      rw [List.filterMap_cons_none (show Action.obj (.commit i) = none from rfl)] at ho
      exact ih lw o ho
    | abort i =>
      rw [List.filterMap_cons_none (show Action.obj (.abort i) = none from rfl)] at ho
      exact ih lw o ho

lemma last_written_out (s : List Action) (o : String) (h : o ∉ objectsOf s) :
    last_written s o = none :=
  foldl_lwStep_out s _ o h

lemma listSubset_iff {α : Type} [DecidableEq α] (l1 l2 : List α) :
    listSubset l1 l2 = true ↔ ∀ x ∈ l1, x ∈ l2 := by
  simp [listSubset]

lemma listSetEq_iff {α : Type} [DecidableEq α] (l1 l2 : List α) :
    listSetEq l1 l2 = true ↔ ∀ x, x ∈ l1 ↔ x ∈ l2 := by
  simp only [listSetEq, Bool.and_eq_true, listSubset_iff]
  constructor
  · rintro ⟨h1, h2⟩ x
    exact ⟨h1 x, h2 x⟩
  · intro h
    exact ⟨fun x hx => (h x).mp hx, fun x hx => (h x).mpr hx⟩

lemma frEqB_iff (s1 s2 : List Action) :
    frEqB s1 s2 = true ↔ ∀ o, first_read s1 o = first_read s2 o := by
  simp only [frEqB, List.all_eq_true, decide_eq_true_eq]
  constructor
  · intro h o
    by_cases h1 : o ∈ objectsOf s1 ++ objectsOf s2
    · exact h o h1
    · rw [List.mem_append] at h1
      push_neg at h1
      rw [first_read_out s1 o h1.1, first_read_out s2 o h1.2]
  · exact fun h o _ => h o

lemma lwEqB_iff (s1 s2 : List Action) :
    lwEqB s1 s2 = true ↔ ∀ o, last_written s1 o = last_written s2 o := by
  simp only [lwEqB, List.all_eq_true, decide_eq_true_eq]
  constructor
  · intro h o
    by_cases h1 : o ∈ objectsOf s1 ++ objectsOf s2
    · exact h o h1
    · rw [List.mem_append] at h1
      push_neg at h1
      rw [last_written_out s1 o h1.1, last_written_out s2 o h1.2]
  · exact fun h o _ => h o

lemma graphs_eq_iff (g1 g2 : List ((Nat × Action) × (Nat × Action))) :
    graphs_eq g1 g2 = true ↔
      ((∀ n, n ∈ vgNodes g1 ↔ n ∈ vgNodes g2) ∧ (∀ e, e ∈ g1 ↔ e ∈ g2)) := by
  rw [graphs_eq, Bool.and_eq_true, listSetEq_iff, listSetEq_iff]

/-- C8: on distinct transaction-id sets view_equivalent fails (no boolean is
returned); on identical sets it returns true exactly when first-read,
view-graph and final-writer agreement all hold. -/
theorem claim_c8 (s1 s2 : List Action) :
    (view_equivalent s1 s2 = none ↔
      ¬ (∀ i, i ∈ transaction_ids s1 ↔ i ∈ transaction_ids s2))
    ∧ (view_equivalent s1 s2 = some true ↔
        ((∀ i, i ∈ transaction_ids s1 ↔ i ∈ transaction_ids s2)
         ∧ (∀ o, first_read s1 o = first_read s2 o)
         ∧ (∀ n, n ∈ vgNodes (view_graph s1) ↔ n ∈ vgNodes (view_graph s2))
         ∧ (∀ e, e ∈ view_graph s1 ↔ e ∈ view_graph s2)
         ∧ (∀ o, last_written s1 o = last_written s2 o))) := by
  have hid : idSetEq s1 s2 = true ↔ ∀ i, i ∈ transaction_ids s1 ↔ i ∈ transaction_ids s2 :=
    listSetEq_iff _ _
  constructor
  · constructor
    · intro h hc
      rw [view_equivalent, if_pos (hid.mpr hc)] at h
      exact Option.noConfusion h
    · intro h
      rw [view_equivalent, if_neg (fun hc => h (hid.mp hc))]
  · constructor
    · intro h
      by_cases hcond : idSetEq s1 s2 = true
      · rw [view_equivalent, if_pos hcond] at h
        have hb := Option.some.inj h
        rw [Bool.and_eq_true, Bool.and_eq_true] at hb
        obtain ⟨⟨h1, h2⟩, h3⟩ := hb
        have hg := (graphs_eq_iff _ _).mp h2
        exact ⟨hid.mp hcond, (frEqB_iff s1 s2).mp h1, hg.1, hg.2, (lwEqB_iff s1 s2).mp h3⟩
      · rw [view_equivalent, if_neg hcond] at h
        exact Option.noConfusion h
    · rintro ⟨hids, hfr, hn, he, hlw⟩
      rw [view_equivalent, if_pos (hid.mpr hids)]
      have hb : (frEqB s1 s2 && graphs_eq (view_graph s1) (view_graph s2) && lwEqB s1 s2) = true := by
        rw [Bool.and_eq_true, Bool.and_eq_true]
        exact ⟨⟨(frEqB_iff s1 s2).mpr hfr, (graphs_eq_iff _ _).mpr ⟨hn, he⟩⟩,
          (lwEqB_iff s1 s2).mpr hlw⟩
      rw [hb]

/-! C9: the view graph's nodes.  A forward characterization of every edge
vgAux emits: a numbered read observing a preceding numbered write of the
same object, with no other write to that object in between. -/

/-- Invariant tying vgAux's last-written dictionary to the processed prefix
P of the numbered schedule. -/
def LastWInv (P : List (Nat × Action)) (lastw : String → Option (Nat × Action)) : Prop :=
  (∀ o w, lastw o = some w → w.2.op = Op.WRITE ∧ w.2.obj = some o ∧
    ∃ p, ∃ hp : p < P.length, P[p] = w ∧
      ∀ r, ∀ hr : r < P.length, p < r →
        ¬ (P[r].2.op = Op.WRITE ∧ P[r].2.obj = some o))
  ∧ (∀ o, lastw o = none →
      ∀ r, ∀ hr : r < P.length,
        ¬ (P[r].2.op = Op.WRITE ∧ P[r].2.obj = some o))

/-- What every emitted view-graph edge satisfies: its first component is a
read at some position at or after m, its second the most recent write of
the same object before it. -/
def VGEdgeSpec (N : List (Nat × Action)) (m : Nat)
    (e : (Nat × Action) × (Nat × Action)) : Prop :=
  ∃ p q, ∃ hp : p < N.length, ∃ hq : q < N.length, p < q ∧ m ≤ q ∧
    N[q] = e.1 ∧ N[p] = e.2 ∧
    e.1.2.op = Op.READ ∧ e.2.2.op = Op.WRITE ∧
    ∃ o, e.1.2.obj = some o ∧ e.2.2.obj = some o ∧
      ∀ r, ∀ hr : r < N.length, p < r → r < q →
        ¬ (N[r].2.op = Op.WRITE ∧ N[r].2.obj = some o)

lemma VGEdgeSpec_mono {N : List (Nat × Action)} {m m2 : Nat}
    {e : (Nat × Action) × (Nat × Action)} (hm : m ≤ m2) (h : VGEdgeSpec N m2 e) :
    VGEdgeSpec N m e := by
  obtain ⟨p, q, hp, hq, h1, h2, h3⟩ := h
  exact ⟨p, q, hp, hq, h1, le_trans hm h2, h3⟩

lemma LastWInv_snoc_nonwrite {P : List (Nat × Action)}
    {lastw : String → Option (Nat × Action)} (na : Nat × Action)
    (hop : ¬ na.2.op = Op.WRITE) (hinv : LastWInv P lastw) : LastWInv (P ++ [na]) lastw := by
  obtain ⟨hs, hn⟩ := hinv
  constructor
  · intro o w hw
    obtain ⟨h1, h2, p, hp, h3, h4⟩ := hs o w hw
    have hp2 : p < (P ++ [na]).length := by
      rw [List.length_append]
      omega
    refine ⟨h1, h2, p, hp2, ?_, ?_⟩
    · rw [List.getElem_append_left hp]
      exact h3
    · intro r hr hpr
      rw [List.length_append, List.length_singleton] at hr
      by_cases hrP : r < P.length
      · rw [List.getElem_append_left hrP]
        exact h4 r hrP hpr
      · have hrl : r = P.length := by omega
        rw [List.getElem_concat_length P na r hrl]
        intro hc
        exact hop hc.1
  · intro o ho r hr
    rw [List.length_append, List.length_singleton] at hr
    by_cases hrP : r < P.length
    · rw [List.getElem_append_left hrP]
      exact hn o ho r hrP
    · have hrl : r = P.length := by omega
      rw [List.getElem_concat_length P na r hrl]
      intro hc
      exact hop hc.1

lemma LastWInv_snoc_write {P : List (Nat × Action)}
    {lastw : String → Option (Nat × Action)} (n j : Nat) (o : String)
    (hinv : LastWInv P lastw) :
    LastWInv (P ++ [(n, Action.write j o)]) (upd lastw o (some (n, Action.write j o))) := by
  obtain ⟨hs, hn⟩ := hinv
  constructor
  · intro o2 w hw
    rw [upd] at hw
    by_cases ho2 : o2 = o
    · rw [if_pos ho2] at hw
      obtain rfl := (Option.some.inj hw).symm
      subst ho2
      have hp2 : P.length < (P ++ [(n, Action.write j o2)]).length := by
        rw [List.length_append, List.length_singleton]
        omega
      refine ⟨rfl, rfl, P.length, hp2, ?_, ?_⟩
      · exact List.getElem_concat_length P _ _ rfl _
      · intro r hr hpr
        rw [List.length_append, List.length_singleton] at hr
        omega
    · rw [if_neg ho2] at hw
      obtain ⟨h1, h2, p, hp, h3, h4⟩ := hs o2 w hw
      have hp2 : p < (P ++ [(n, Action.write j o)]).length := by
        rw [List.length_append]
        omega
      refine ⟨h1, h2, p, hp2, ?_, ?_⟩
      · rw [List.getElem_append_left hp]
        exact h3
      · intro r hr hpr
        rw [List.length_append, List.length_singleton] at hr
        by_cases hrP : r < P.length
        · rw [List.getElem_append_left hrP]
          exact h4 r hrP hpr
        · have hrl : r = P.length := by omega
          rw [List.getElem_concat_length P _ r hrl]
          intro hc
          exact ho2 (Option.some.inj hc.2).symm
  · intro o2 ho2 r hr
    rw [upd] at ho2
    by_cases ho : o2 = o
    · rw [if_pos ho] at ho2
      exact Option.noConfusion ho2
    · rw [if_neg ho] at ho2
      rw [List.length_append, List.length_singleton] at hr
      by_cases hrP : r < P.length
      · rw [List.getElem_append_left hrP]
        exact hn o2 ho2 r hrP
      · have hrl : r = P.length := by omega
        rw [List.getElem_concat_length P _ r hrl]
        intro hc
        exact ho (Option.some.inj hc.2).symm

lemma vgAux_spec : ∀ (l : List (Nat × Action)) (lastw : String → Option (Nat × Action))
    (P : List (Nat × Action)), LastWInv P lastw →
    ∀ e ∈ vgAux l lastw, VGEdgeSpec (P ++ l) P.length e := by
  intro l
  induction l with
  | nil =>
    intro lastw P _ e he
    exact absurd he (List.not_mem_nil e)
  | cons x l ih =>
    intro lastw P hinv e he
    obtain ⟨n, a⟩ := x
    have hshape : (P ++ [(n, a)]) ++ l = P ++ (n, a) :: l := by simp
    have hlen : (P ++ [(n, a)]).length = P.length + 1 := by simp
    cases a with
    | write j o =>
      simp only [vgAux] at he
      have h2 := ih _ _ (LastWInv_snoc_write n j o hinv) e he
      rw [hshape, hlen] at h2
      exact VGEdgeSpec_mono (Nat.le_succ _) h2
    | read j o =>
      simp only [vgAux] at he
      cases hlw : lastw o with
      | none =>
        simp only [hlw] at he
        have h2 := ih _ _
          (LastWInv_snoc_nonwrite (n, Action.read j o) (fun hc => Op.noConfusion hc) hinv) e he
        rw [hshape, hlen] at h2
        exact VGEdgeSpec_mono (Nat.le_succ _) h2
      | some w =>
        simp only [hlw] at he
        rcases List.mem_cons.mp he with rfl | he2
        · obtain ⟨hop, hobj, p, hp, h3, h4⟩ := hinv.1 o w hlw
          have hqlen : P.length < (P ++ (n, Action.read j o) :: l).length := by
            rw [List.length_append, List.length_cons]
            omega
          have hplen : p < (P ++ (n, Action.read j o) :: l).length := by
            rw [List.length_append, List.length_cons]
            omega
          refine ⟨p, P.length, hplen, hqlen, hp, le_refl _, ?_, ?_, rfl, hop, o, rfl, hobj, ?_⟩
          · rw [List.getElem_append_right (le_refl P.length)]
            simp
          · rw [List.getElem_append_left hp]
            exact h3
          · intro r hr hpr hrq
            have hrP : r < P.length := hrq
            rw [List.getElem_append_left hrP]
            exact h4 r hrP hpr
        · have h2 := ih _ _
            (LastWInv_snoc_nonwrite (n, Action.read j o) (fun hc => Op.noConfusion hc) hinv) e he2
          rw [hshape, hlen] at h2
          exact VGEdgeSpec_mono (Nat.le_succ _) h2
    | commit j =>
      simp only [vgAux] at he
      have h2 := ih _ _
        (LastWInv_snoc_nonwrite (n, Action.commit j) (fun hc => Op.noConfusion hc) hinv) e he
      rw [hshape, hlen] at h2
      exact VGEdgeSpec_mono (Nat.le_succ _) h2
    | abort j =>
      simp only [vgAux] at he
      have h2 := ih _ _
        (LastWInv_snoc_nonwrite (n, Action.abort j) (fun hc => Op.noConfusion hc) hinv) e he
      rw [hshape, hlen] at h2
      exact VGEdgeSpec_mono (Nat.le_succ _) h2

/-- x appears strictly before y in the numbered schedule N. -/
def PrecedesIn (N : List (Nat × Action)) (x y : Nat × Action) : Prop :=
  ∃ p q, ∃ hp : p < N.length, ∃ hq : q < N.length, p < q ∧ N[p] = x ∧ N[q] = y

/-- The conclusion of C9 for one node of the view graph: it is an endpoint
of a read-observes-write edge, it is neither a Commit nor an Abort, a read
node observes a preceding write of its object, and a write node is observed
by a subsequent read of its object. -/
def C9Prop (s : List Action) (n : Nat × Action) : Prop :=
  (∃ e, e ∈ view_graph s ∧ (n = e.1 ∨ n = e.2))
  ∧ n.2.op ≠ Op.COMMIT
  ∧ n.2.op ≠ Op.ABORT
  ∧ (n.2.op = Op.READ → ∃ e, e ∈ view_graph s ∧ e.1 = n ∧ e.2.2.op = Op.WRITE ∧
      e.2.2.obj = n.2.obj ∧ PrecedesIn (number s) e.2 e.1)
  ∧ (n.2.op = Op.WRITE → ∃ e, e ∈ view_graph s ∧ e.2 = n ∧ e.1.2.op = Op.READ ∧
      e.1.2.obj = n.2.obj ∧ PrecedesIn (number s) e.2 e.1)

/-- C9: every node of the view graph is an endpoint of a read-observes-write
edge; Commits and Aborts, never-read writes and never-preceded reads are
absent from the node set. -/
theorem claim_c9 (s : List Action) : ∀ n ∈ vgNodes (view_graph s), C9Prop s n := by
  intro n hn
  rw [vgNodes, List.mem_flatMap] at hn
  obtain ⟨e, he, hn2⟩ := hn
  have hn3 : n = e.1 ∨ n = e.2 := by
    rcases List.mem_cons.mp hn2 with h | h
    · exact Or.inl h
    · exact Or.inr (by simpa using h)
  have hinv0 : LastWInv [] (fun _ => none) :=
    ⟨fun o w hw => Option.noConfusion hw, fun o _ r hr => by simp at hr⟩
  have hspec := vgAux_spec (number s) (fun _ => none) [] hinv0 e he
  rw [List.nil_append] at hspec
  obtain ⟨p, q, hp, hq, hlt, _, hq1, hp2, hrop, hwop, o, ho1, ho2, _⟩ := hspec
  simp only [C9Prop, PrecedesIn]
  rcases hn3 with rfl | rfl
  · refine ⟨⟨e, he, Or.inl rfl⟩, ?_, ?_, ?_, ?_⟩
    · intro hc
      rw [hrop] at hc
      exact Op.noConfusion hc
    · intro hc
      rw [hrop] at hc
      exact Op.noConfusion hc
    · intro _
      exact ⟨e, he, rfl, hwop, ho2.trans ho1.symm, p, q, hp, hq, hlt, hp2, hq1⟩
    · intro hW
      exact Op.noConfusion (hrop.symm.trans hW)
  · refine ⟨⟨e, he, Or.inr rfl⟩, ?_, ?_, ?_, ?_⟩
    · intro hc
      rw [hwop] at hc
      exact Op.noConfusion hc
    · intro hc
      rw [hwop] at hc
      exact Op.noConfusion hc
    · intro hR
      exact Op.noConfusion (hwop.symm.trans hR)
    · intro _
      exact ⟨e, he, rfl, hrop, ho1.trans ho2.symm, p, q, hp, hq, hlt, hp2, hq1⟩

/-- A two-action schedule whose view graph has one edge. -/
def exE : List Action := [.write 1 "A", .read 2 "A"]

theorem claim_c9_witness :
    (0, Action.write 1 "A") ∈ vgNodes (view_graph exE) ∧ C9Prop exE (0, Action.write 1 "A") :=
  ⟨by decide, claim_c9 exE (0, Action.write 1 "A") (by decide)⟩

end Serial
